import Mathlib

/-!
Verification development for the ragdocs document-chunking / vector-store core.

Text is modelled as `List Char`.  JavaScript string operations used by the
source (`split(/(?<=\.|\?|\!|\n)\s+/)`, `split(/\s+/)`, `trim`, `slice`,
`join(' ')`, the fenced-code-block regex `/```[\s\S]*?```/g`) are embedded as
executable Lean functions with the same semantics.  `\s` is modelled by the
whitespace characters that actually occur in the repository's inputs
(space, newline, tab, carriage return).
-/

namespace RagDocs

/-- Characters treated as whitespace (model of the JS regex class `\s`). -/
def isWs (c : Char) : Bool :=
  c = ' ' || c = '\n' || c = '\t' || c = '\r'

/-- Sentence/line boundary characters of the chunker's splitter regex
`(?<=\.|\?|\!|\n)`. -/
def isBnd (c : Char) : Bool :=
  c = '.' || c = '?' || c = '!' || c = '\n'

/-- Model of JS `String.prototype.trim` (strip leading and trailing
whitespace). -/
def jsTrim (s : List Char) : List Char :=
  ((s.dropWhile isWs).reverse.dropWhile isWs).reverse

/-- Worker for `jsSplitWs`: `inRun` says we are inside a whitespace
separator run, `cur` is the current piece accumulated in reverse. -/
def wGo : Bool → List Char → List Char → List (List Char)
  | _, cur, [] => [cur.reverse]
  | true, cur, c :: rest =>
      if isWs c then wGo true cur rest else wGo false [c] rest
  | false, cur, c :: rest =>
      if isWs c then cur.reverse :: wGo true [] rest
      else wGo false (c :: cur) rest

/-- Model of JS `s.split(/\s+/)`: maximal whitespace runs are separators;
a leading/trailing run produces an empty boundary piece (as in JS). -/
def jsSplitWs (s : List Char) : List (List Char) :=
  wGo false [] s

/-- Model of JS `Array.prototype.join(' ')`. -/
def jsJoinSp : List (List Char) → List Char
  | [] => []
  | [x] => x
  | x :: y :: t => x ++ ' ' :: jsJoinSp (y :: t)

/-- Model of JS `Array.prototype.slice(start)` (single argument):
a negative start counts from the end and clamps at 0; note that in JS
`-0 === 0`, so `slice(-0)` returns the whole array. -/
def jsSlice (start : Int) (xs : List α) : List α :=
  if start < 0 then xs.drop (((xs.length : Int) + start).toNat)
  else xs.drop start.toNat

/-- Worker for `splitBoundary`: the state machine of the splitter regex
`/(?<=\.|\?|\!|\n)\s+/`.  `inRun` says we are consuming a (greedy)
whitespace separator run; `prev` is the previous character (for the
lookbehind); `cur` is the current piece in reverse. -/
def sbGo : Bool → Char → List Char → List Char → List (List Char)
  | _, _, cur, [] => [cur.reverse]
  | true, prev, cur, c :: rest =>
      if isWs c then sbGo true prev cur rest
      else sbGo false c [c] rest
  | false, prev, cur, c :: rest =>
      if isWs c && isBnd prev then cur.reverse :: sbGo true prev [] rest
      else sbGo false c (c :: cur) rest

/-- Model of JS `text.split(/(?<=\.|\?|\!|\n)\s+/)`: a whitespace run
starting right after `.`, `?`, `!` or a newline is a separator.  The
character at position 0 can never start a separator (the lookbehind
fails there). -/
def splitBoundary : List Char → List (List Char)
  | [] => [[]]
  | c :: rest => sbGo false c [c] rest

/-- First occurrence of a triple backtick: returns the part before it and
the suffix beginning with the three backticks. -/
def findTicks : List Char → Option (List Char × List Char)
  | [] => none
  | c :: rest =>
      if c = '`' && rest.take 2 = ['`', '`'] then some ([], c :: rest)
      else (findTicks rest).map (fun pr => (c :: pr.1, pr.2))

/-- `true` iff the text contains three consecutive backticks
(model of the JS test `/```/.test(content)`). -/
def containsTicks (s : List Char) : Bool :=
  (findTicks s).isSome

/-- The `FileType` enum of `text-chunker.ts`. -/
inductive FileType where
  | text
  | markdown
  | pdf
  | docx
deriving DecidableEq, Repr

/-- `Partial<ChunkOptions>`: the caller-supplied options of
`TextChunker.chunkText` (every field optional).  Numeric fields are `Int`,
modelling JS integer-valued numbers, so that the negative-value validation
checks are meaningful.  (`preserveStructure` is never read by the source
and is omitted.) -/
structure PartialChunkOptions where
  maxChunkSize : Option Int := none
  minChunkSize : Option Int := none
  overlap : Option Int := none
  overlapWords : Option Int := none
  respectCodeBlocks : Option Bool := none
  fileType : Option FileType := none
deriving DecidableEq, Repr

/-- Options after merging with `TextChunker.DEFAULT_OPTIONS`
(`{maxChunkSize: 1000, minChunkSize: 100, overlap: 200, overlapWords: 20,
respectCodeBlocks: true}`; the defaults carry no `fileType`). -/
structure ChunkOptions where
  maxChunkSize : Int
  minChunkSize : Int
  overlap : Int
  overlapWords : Option Int
  respectCodeBlocks : Bool
  fileType : Option FileType
deriving DecidableEq, Repr

/-- The spread `{...DEFAULT_OPTIONS, ...options}` of `validateOptions`. -/
def mergeDefaults (p : PartialChunkOptions) : ChunkOptions where
  maxChunkSize := p.maxChunkSize.getD 1000
  minChunkSize := p.minChunkSize.getD 100
  overlap := p.overlap.getD 200
  overlapWords := some (p.overlapWords.getD 20)
  respectCodeBlocks := p.respectCodeBlocks.getD true
  fileType := p.fileType

/-- Errors raised by the chunker (`Error` values thrown in
`text-chunker.ts`, tagged by their message). -/
inductive ChunkError where
  /-- "maxChunkSize must be greater than minChunkSize" -/
  | configMaxMin
  /-- "overlap must be less than maxChunkSize" -/
  | configOverlap
  /-- "chunk sizes and overlap must be positive numbers" -/
  | configPositive
  /-- "Text must be a non-empty string" -/
  | emptyInput
deriving DecidableEq, Repr

/-- `TextChunker.validateOptions`: merges the defaults and checks them.
The source's final check (`opts.fileType` not a member of the `FileType`
enum) cannot fire for well-typed options and has no branch here. -/
def validateOptions (p : PartialChunkOptions) : Except ChunkError ChunkOptions :=
  let o := mergeDefaults p
  if o.maxChunkSize < o.minChunkSize then .error .configMaxMin
  else if o.overlap ≥ o.maxChunkSize then .error .configOverlap
  else if o.minChunkSize ≤ 0 ∨ o.maxChunkSize ≤ 0 ∨ o.overlap < 0 then
    .error .configPositive
  else .ok o

/-- A produced chunk.  The source nests `startPosition`, `endPosition` and
`isCodeBlock` inside `metadata`; they are flattened here.
(`fileType` and `structureMetadata` are only decorative in the source and
are not modelled: no claim mentions them.)  Positions are `Int` since the
source's arithmetic can produce any JS number. -/
structure TextChunkM where
  content : List Char
  index : Nat
  startPosition : Int
  endPosition : Int
  isCodeBlock : Bool
deriving DecidableEq, Repr

/-- `options.overlapWords || Math.ceil(options.overlap / 10)`: the number
of words carried over between chunks.  `0` is falsy in JS, hence the
explicit fallback when `overlapWords` is `0`. -/
def effOverlapW (o : ChunkOptions) : Int :=
  match o.overlapWords with
  | some v => if v ≠ 0 then v else -((-o.overlap) / 10)
  | none => -((-o.overlap) / 10)

/-- The sentence/line blocks a non-code segment is split into:
`text.split(/(?<=\.|\?|\!|\n)\s+/).filter(Boolean).map(b => b.trim())`. -/
def segBlocks (text : List Char) : List (List Char) :=
  ((splitBoundary text).filter (fun b => b ≠ [])).map jsTrim

/-- The block loop of `TextChunker.chunkSegment`: `chunks` is the output so
far, `cc` the running buffer (`currentChunk`), `pos` the running
`currentPosition`. -/
def csGo (o : ChunkOptions) (sp : Int) (si : Nat) (icb : Bool) :
    List (List Char) → List TextChunkM → List Char → Int → List TextChunkM
  | [], chunks, cc, pos =>
      if cc = [] then chunks
      else chunks ++ [⟨cc, si + chunks.length, sp + pos - cc.length, sp + pos, icb⟩]
  | b :: bs, chunks, cc, pos =>
      if cc ≠ [] ∧ ((cc.length : Int) + b.length > o.maxChunkSize) ∧
          ((cc.length : Int) ≥ o.minChunkSize) then
        let chunks' := chunks ++ [⟨cc, si + chunks.length, sp + pos - cc.length, sp + pos, icb⟩]
        let ov := jsSlice (-(effOverlapW o)) (jsSplitWs cc)
        csGo o sp si icb bs chunks' (jsJoinSp ov ++ ' ' :: b) (pos + b.length + 1)
      else
        csGo o sp si icb bs chunks (if cc = [] then b else cc ++ ' ' :: b)
          (pos + b.length + 1)

/-- `TextChunker.chunkSegment`. -/
def chunkSegment (text : List Char) (o : ChunkOptions) (startPosition : Int)
    (startIndex : Nat) (isCodeBlock : Bool) : List TextChunkM :=
  let blocks := if isCodeBlock then [text] else segBlocks text
  csGo o startPosition startIndex isCodeBlock blocks [] [] 0

/-- Fueled worker for `separateCodeBlocks`, scanning for matches of the
regex `/```[\s\S]*?```/g`: the leftmost match starts at the first triple
backtick and ends at the first triple backtick found at least three
characters later (lazy quantifier); if the first opener has no closer the
regex cannot match anywhere (any later closer would also close the first
opener).  Each recursion step consumes the match (at least 6 characters),
so `fuel = s.length + 1` is never exhausted; the fuel-0 fallback equals
the no-match answer. -/
def sepGo : Nat → List Char → List (List Char × Bool)
  | 0, s => if s = [] then [] else [(s, false)]
  | fuel + 1, s =>
      match findTicks s with
      | none => if s = [] then [] else [(s, false)]
      | some (p, r) =>
          match findTicks (r.drop 3) with
          | none => if s = [] then [] else [(s, false)]
          | some (mid, r₂) =>
              (if p = [] then [] else [(p, false)]) ++
                [(('`' :: '`' :: '`' :: mid) ++ ['`', '`', '`'], true)] ++
                sepGo fuel (r₂.drop 3)

/-- `TextChunker.separateCodeBlocks`: the alternating prose/code segments
(`snd = true` marks a fenced code block). -/
def separateCodeBlocks (s : List Char) : List (List Char × Bool) :=
  sepGo (s.length + 1) s

/-- Model of JS `text.split(/\f/)` (used by `PDFChunkingStrategy`):
split on every single separator character, keeping empty pieces. -/
def jsSplitChar (sep : Char) : List Char → List (List Char)
  | [] => [[]]
  | c :: r =>
      if c = sep then [] :: jsSplitChar sep r
      else
        match jsSplitChar sep r with
        | [] => [[c]]
        | p :: ps => (c :: p) :: ps

/-- Worker for `docxSplit`: a run of two or more newlines is a separator
(`/\n{2,}/`); `inRun` says we are consuming such a run. -/
def dxGo : Bool → List Char → List Char → List (List Char)
  | _, cur, [] => [cur.reverse]
  | true, cur, c :: rest =>
      if c = '\n' then dxGo true cur rest else dxGo false [c] rest
  | false, cur, c :: rest =>
      match rest with
      | [] => [(c :: cur).reverse]
      | d :: rest₂ =>
          if c = '\n' && d = '\n' then cur.reverse :: dxGo true [] rest₂
          else dxGo false (c :: cur) (d :: rest₂)

/-- Model of JS `text.split(/\n{2,}/)` (used by `DocxChunkingStrategy`). -/
def docxSplit (s : List Char) : List (List Char) :=
  dxGo false [] s

/-- The page loop of `PDFChunkingStrategy.chunk` (the source's
`currentIndex` is the running character position passed to
`chunkSegment` as `startPosition`).  `structureMetadata.pageNumbers` is
not modelled. -/
def pdfGo (o : ChunkOptions) : List (List Char) → Int → List TextChunkM → List TextChunkM
  | [], _, chunks => chunks
  | page :: rest, pos, chunks =>
      pdfGo o rest (pos + page.length)
        (chunks ++ chunkSegment page o pos chunks.length false)

/-- `PDFChunkingStrategy.chunk`. -/
def pdfChunk (text : List Char) (o : ChunkOptions) : List TextChunkM :=
  pdfGo o (jsSplitChar '\x0c' text) 0 []

/-- The paragraph loop of `DocxChunkingStrategy.chunk`: blank paragraphs
are skipped (and then do not advance `currentIndex`, as in the source). -/
def dcGo (o : ChunkOptions) : List (List Char) → Int → List TextChunkM → List TextChunkM
  | [], _, chunks => chunks
  | para :: rest, pos, chunks =>
      if jsTrim para ≠ [] then
        dcGo o rest (pos + para.length + 2)
          (chunks ++ chunkSegment para o pos chunks.length false)
      else dcGo o rest pos chunks

/-- `DocxChunkingStrategy.chunk`. -/
def docxChunk (text : List Char) (o : ChunkOptions) : List TextChunkM :=
  dcGo o (docxSplit text) 0 []

/-- `TextChunker.getChunkingStrategy(fileType).chunk(text, options)`:
PDF and DOCX have dedicated strategies, everything else uses
`DefaultChunkingStrategy`, i.e. `chunkSegment(text, options, 0, 0, false)`. -/
def strategyChunk (ft : FileType) (text : List Char) (o : ChunkOptions) : List TextChunkM :=
  match ft with
  | .pdf => pdfChunk text o
  | .docx => docxChunk text o
  | _ => chunkSegment text o 0 0 false

/-- The segment loop of `chunkText`'s code-block-respecting branch.  Code
segments get the running position and chunk count; prose segments go
through `strategy.chunk` (the default strategy here, since this branch
requires `fileType` text/markdown), which restarts positions and indices
at `0`. -/
def segLoop (o : ChunkOptions) : List (List Char × Bool) → Int → List TextChunkM → List TextChunkM
  | [], _, chunks => chunks
  | (seg, isCode) :: rest, pos, chunks =>
      let scs :=
        if isCode then chunkSegment seg o pos chunks.length true
        else chunkSegment seg o 0 0 false
      segLoop o rest (pos + seg.length) (chunks ++ scs)

/-- `TextChunker.chunkText`.  Note that the code-block-respecting branch
requires `opts.fileType` to be explicitly `text` or `markdown`: the merged
defaults leave `fileType` undefined, so the default configuration takes
the plain-strategy branch. -/
def chunkText (text : List Char) (p : PartialChunkOptions) :
    Except ChunkError (List TextChunkM) :=
  if jsTrim text = [] then .error .emptyInput
  else
    match validateOptions p with
    | .error e => .error e
    | .ok o =>
        if o.respectCodeBlocks ∧
            (o.fileType = some .text ∨ o.fileType = some .markdown) then
          .ok (segLoop o (separateCodeBlocks text) 0 [])
        else .ok (strategyChunk (o.fileType.getD .text) text o)

/-- Concatenation, in order, of the contents of a segment list. -/
def concatSegs (segs : List (List Char × Bool)) : List Char :=
  (segs.map Prod.fst).flatten

lemma findTicks_append : ∀ (s p r : List Char), findTicks s = some (p, r) → s = p ++ r := by
  intro s
  induction s with
  | nil => intro p r h; simp [findTicks] at h
  | cons c rest ih =>
      intro p r h
      by_cases hc : c = '`' && rest.take 2 = ['`', '`']
      · simp [findTicks, hc] at h
        simp [← h.1, ← h.2]
      · simp [findTicks, hc] at h
        obtain ⟨p', h1, h2⟩ := h
        have := ih p' r h1
        simp [← h2, this]

lemma findTicks_ticks : ∀ (s p r : List Char), findTicks s = some (p, r) →
    ∃ t, r = '`' :: '`' :: '`' :: t := by
  intro s
  induction s with
  | nil => intro p r h; simp [findTicks] at h
  | cons c rest ih =>
      intro p r h
      by_cases hc : c = '`' && rest.take 2 = ['`', '`']
      · simp [findTicks, hc] at h
        obtain ⟨hc1, hc2⟩ := (by simpa using hc : c = '`' ∧ rest.take 2 = ['`', '`'])
        match rest, hc2 with
        | a :: b :: t, hc2 =>
            simp at hc2
            exact ⟨t, by simp [← h.2, hc1, hc2.1, hc2.2]⟩
      · simp [findTicks, hc] at h
        obtain ⟨p', h1, h2⟩ := h
        exact ih p' r h1

lemma concatSegs_append (a b : List (List Char × Bool)) :
    concatSegs (a ++ b) = concatSegs a ++ concatSegs b := by
  simp [concatSegs]

lemma sepGo_concat (fuel : ℕ) : ∀ s, concatSegs (sepGo fuel s) = s := by
  induction fuel with
  | zero =>
      intro s
      by_cases h : s = [] <;> simp [sepGo, concatSegs, h]
  | succ n ih =>
      intro s
      by_cases h : s = []
      · subst h; simp [sepGo, findTicks, concatSegs]
      rcases h1 : findTicks s with _ | ⟨p, r⟩
      · simp [sepGo, h1, concatSegs, h]
      rcases h2 : findTicks (r.drop 3) with _ | ⟨mid, r₂⟩
      · simp [sepGo, h1, h2, concatSegs, h]
      obtain ⟨t, ht⟩ := findTicks_ticks _ _ _ h1
      obtain ⟨t₂, ht₂⟩ := findTicks_ticks _ _ _ h2
      have hs : s = p ++ r := findTicks_append _ _ _ h1
      have hmid : r.drop 3 = mid ++ r₂ := findTicks_append _ _ _ h2
      rw [ht] at hmid
      simp only [List.drop_succ_cons, List.drop_zero] at hmid
      have hdrop₂ : r₂.drop 3 = t₂ := by rw [ht₂]; rfl
      have hrest := ih (r₂.drop 3)
      rw [hdrop₂] at hrest
      have hpre : concatSegs (if p = [] then [] else [(p, false)]) = p := by
        by_cases hp : p = [] <;> simp [hp, concatSegs]
      simp only [sepGo, h1, h2]
      rw [concatSegs_append, concatSegs_append, hpre, hdrop₂, hrest, hs, ht, hmid, ht₂]
      simp [concatSegs]

/-- C2: the segments produced by `separateCodeBlocks` concatenate, in
order, to exactly the original input text. -/
theorem separateCodeBlocks_lossless (s : List Char) :
    concatSegs (separateCodeBlocks s) = s :=
  sepGo_concat (s.length + 1) s

/-- C3 (code-bug evidence): `validateOptions` accepts
`maxChunkSize = minChunkSize = 100` (with `overlap = 0`), although the
claim — and the source's own error message, "maxChunkSize must be greater
than minChunkSize" — require this configuration to be rejected: the source
compares with `<` instead of `<=`. -/
theorem validateOptions_accepts_equal_sizes :
    validateOptions
        { maxChunkSize := some 100, minChunkSize := some 100, overlap := some 0 } =
      .ok { maxChunkSize := 100, minChunkSize := 100, overlap := 0,
            overlapWords := some 20, respectCodeBlocks := true, fileType := none } := by
  rfl

/-- The C4 failing input: a fenced code block followed by prose, chunked
with `fileType: text` so that the code-block-respecting branch runs. -/
def c4Text : List Char := "```ab``` x.".data

/-- The C4 options: valid sizes, `fileType: text`. -/
def c4Opts : PartialChunkOptions :=
  { maxChunkSize := some 50, minChunkSize := some 1, overlap := some 0,
    overlapWords := some 1, fileType := some .text }

/-- C4 (code-bug evidence): on `c4Text` the two produced chunks BOTH have
index `0` (the claim requires indices `0, 1`), because prose segments are
chunked through `DefaultChunkingStrategy.chunk`, which restarts the index
and position at `0`; the second chunk's `startPosition` is `1`, not its
absolute offset `9` in the original text. -/
theorem chunkText_index_restart_bug :
    (chunkText c4Text c4Opts).toOption.map
        (fun cs => cs.map (fun ch => (ch.index, ch.startPosition))) =
      some [(0, 1), (0, 1)] := by
  rfl

/-- The C1 counterexample text: one oversized sentence block followed by
two short ones. -/
def c1Text : List Char := "aaaaaaaaaaaa. b. c.".data

/-- The C1 counterexample options: valid (`max 10 > min 3 > 0`,
`0 ≤ overlap 0 < 10`). -/
def c1Opts : PartialChunkOptions :=
  { maxChunkSize := some 10, minChunkSize := some 3, overlap := some 0,
    overlapWords := some 1 }

/-- C1 counterexample: with valid options (`maxChunkSize = 10`), the first
emitted chunk has length `13 > 10`, is not a code block, and is not the
final trailing chunk (three chunks are produced) — refuting the claim that
every chunk except single code blocks and the final trailing chunk fits
`maxChunkSize`: a single sentence/line block is never split, so an
oversized block yields an oversized non-final prose chunk. -/
theorem chunkText_oversized_nonfinal_chunk :
    (chunkText c1Text c1Opts).toOption.map
        (fun cs => cs.map (fun ch => (ch.content.length, ch.isCodeBlock))) =
      some [(13, false), (16, false), (5, false)] ∧
    (c1Opts.maxChunkSize = some 10 ∧ validateOptions c1Opts = .ok (mergeDefaults c1Opts)) := by
  exact ⟨by rfl, by rfl, by rfl⟩

/-! ## Search utilities (`search.ts`) and the Qdrant query engine -/

/-- `normalizeScore` from `search.ts`: scores are modelled as exact
rationals (the three pinned values and the division by 2 are exact in
IEEE-754 as well, and IEEE rounding is monotone). -/
def normalizeScore (score : ℚ) : ℚ :=
  (score + 1) / 2

/-- The optional `filters` record of `SearchOptions`. -/
structure SearchFilters where
  domain : Option String := none
  hasCode : Option Bool := none
  after : Option String := none
  before : Option String := none
deriving DecidableEq, Repr

/-- `SearchOptions` of `search.ts`.  `limit` and `scoreThreshold` are JS
numbers, modelled as rationals. -/
structure SearchOptions where
  limit : Option ℚ := none
  scoreThreshold : Option ℚ := none
  filters : Option SearchFilters := none
deriving DecidableEq, Repr

/-- The `McpError(ErrorCode.InvalidRequest, ...)` values thrown by
`validateSearchOptions`, tagged by message. -/
inductive SearchValidationError where
  /-- "Limit must be between 1 and 20" -/
  | badLimit
  /-- "Score threshold must be between 0 and 1" -/
  | badThreshold
  /-- "Invalid after date format" -/
  | badAfter
  /-- "Invalid before date format" -/
  | badBefore
deriving DecidableEq, Repr

/-- The `options.limit !== undefined && (options.limit < 1 || options.limit > 20)`
test. -/
def limitBad (o : SearchOptions) : Bool :=
  match o.limit with
  | some l => decide (l < 1 ∨ 20 < l)
  | none => false

/-- The score-threshold range test. -/
def thresholdBad (o : SearchOptions) : Bool :=
  match o.scoreThreshold with
  | some t => decide (t < 0 ∨ 1 < t)
  | none => false

/-- `options.filters?.after && isNaN(Date.parse(options.filters.after))`:
`Date.parse` is external and is modelled by the parameter `parseOk`; note
that an empty string is falsy in JS, so an empty `after` short-circuits
the whole test. -/
def afterBad (parseOk : String → Bool) (o : SearchOptions) : Bool :=
  match o.filters with
  | some f =>
      match f.after with
      | some a => a != "" && !parseOk a
      | none => false
  | none => false

/-- The `before` variant of `afterBad`. -/
def beforeBad (parseOk : String → Bool) (o : SearchOptions) : Bool :=
  match o.filters with
  | some f =>
      match f.before with
      | some b => b != "" && !parseOk b
      | none => false
  | none => false

/-- `validateSearchOptions` from `search.ts` (the four checks in source
order). -/
def validateSearchOptions (parseOk : String → Bool) (o : SearchOptions) :
    Except SearchValidationError Unit :=
  if limitBad o then .error .badLimit
  else if thresholdBad o then .error .badThreshold
  else if afterBad parseOk o then .error .badAfter
  else if beforeBad parseOk o then .error .badBefore
  else .ok ()

/-- One condition of the Qdrant pre-filter built by `searchSimilar`. -/
inductive FilterCond where
  | matchDomain (d : String)
  | matchHasCode (b : Bool)
  | afterGte (ts : String)
  | beforeLte (ts : String)
deriving DecidableEq, Repr

/-- The filter-building block of `QdrantWrapper.searchSimilar`
(`filter.must` pushes, in source order).  `domain`/`after`/`before` are
guarded by JS truthiness, so empty strings are skipped; `hasCode` is
guarded by `!== undefined`. -/
def buildFilter (fo : Option SearchFilters) : List FilterCond :=
  match fo with
  | none => []
  | some f =>
      (match f.domain with
       | some d => if d ≠ "" then [.matchDomain d] else []
       | none => []) ++
      (match f.hasCode with
       | some b => [.matchHasCode b]
       | none => []) ++
      (match f.after with
       | some a => if a ≠ "" then [.afterGte a] else []
       | none => []) ++
      (match f.before with
       | some b => if b ≠ "" then [.beforeLte b] else []
       | none => [])

/-- A search hit as returned by the store and validated by
`searchSimilar`'s mapping step (in the typed model every required payload
field is present, so the `String(...)`/`Number(...)` coercions and the
missing-field check are identities). -/
structure QdrantHit where
  score : ℚ
  url : String
  title : String
  domain : String
  timestamp : String
  contentType : String
  wordCount : ℕ
  hasCode : Bool
  chunkIndex : ℕ
  totalChunks : ℕ
  content : String
deriving DecidableEq, Repr

/-- The options record of `QdrantWrapper.searchSimilar` (its own copy of
the search options; `limit` is an integer there). -/
structure QSearchOptions where
  limit : Option ℕ := none
  scoreThreshold : Option ℚ := none
  filters : Option SearchFilters := none
deriving DecidableEq, Repr

/-- `const limit = options.limit || 5` (`0` is falsy). -/
def searchLimit (o : QSearchOptions) : ℕ :=
  match o.limit with
  | some l => if l = 0 then 5 else l
  | none => 5

/-- `const scoreThreshold = options.scoreThreshold || 0.7` (`0` is falsy). -/
def searchThreshold (o : QSearchOptions) : ℚ :=
  match o.scoreThreshold with
  | some t => if t = 0 then 7/10 else t
  | none => 7/10

/-- `Math.ceil(limit * 1.5)`, the candidate count requested from the
store, computed on naturals. -/
def requestLimit (o : QSearchOptions) : ℕ :=
  (3 * searchLimit o + 1) / 2

/-- `filter.must.length > 0 ? filter : undefined`. -/
def searchFilterArg (o : QSearchOptions) : Option (List FilterCond) :=
  let filt := buildFilter o.filters
  if filt.length > 0 then some filt else none

/-- `QdrantWrapper.searchSimilar`: the store call is the external
collaborator `store` (query vector, requested limit, score threshold,
optional pre-filter); the hit-mapping step is the identity on typed hits,
and `.slice(0, limit)` truncates. -/
def searchSimilar (store : List ℚ → ℕ → ℚ → Option (List FilterCond) → List QdrantHit)
    (queryVector : List ℚ) (o : QSearchOptions) : List QdrantHit :=
  (store queryVector (requestLimit o) (searchThreshold o) (searchFilterArg o)).take
    (searchLimit o)

/-! ## Pagination (`list-utils.ts`) -/

/-- The record returned by `ListUtils.getPaginationDetails`.  `offset` is
an `Int`: for `totalPages = 0` the source computes `(0 - 1) * pageSize`,
which is negative. -/
structure PaginationDetails where
  offset : Int
  limit : ℕ
  totalPages : ℕ
deriving DecidableEq, Repr

/-- `ListUtils.getPaginationDetails` (defaults `page = 1`,
`pageSize = 20` as in the source).  `Math.ceil(total / pageSize)` is
modelled as the negated floor division `-((-total) / pageSize)`, which is
the exact integer ceiling for `pageSize > 0`. -/
def getPaginationDetails (total : ℕ) (page : ℕ := 1) (pageSize : ℕ := 20) :
    PaginationDetails :=
  let totalPages := (-((-(total : Int)) / pageSize)).toNat
  let currentPage := min (max 1 page) totalPages
  { offset := ((currentPage : Int) - 1) * pageSize
    limit := pageSize
    totalPages := totalPages }

/-- C5: `normalizeScore` maps `-1 ↦ 0`, `0 ↦ 0.5`, `1 ↦ 1` and is
monotone. -/
theorem normalizeScore_spec :
    normalizeScore (-1) = 0 ∧ normalizeScore 0 = 1/2 ∧ normalizeScore 1 = 1 ∧
    ∀ a b : ℚ, a ≤ b → normalizeScore a ≤ normalizeScore b := by
  refine ⟨by norm_num [normalizeScore], by norm_num [normalizeScore],
    by norm_num [normalizeScore], ?_⟩
  intro a b h
  simp only [normalizeScore]
  linarith

/-- Witness for C5's monotonicity hypothesis at `a = 0 ≤ b = 1`. -/
theorem normalizeScore_spec_witness : normalizeScore 0 ≤ normalizeScore 1 :=
  normalizeScore_spec.2.2.2 0 1 (by norm_num)

/-- C6 (amended): `validateSearchOptions` fails exactly when `limit` is
present and outside `[1, 20]`, or `scoreThreshold` is present and outside
`[0, 1]`, or an `after`/`before` filter entry is present, **non-empty**,
and does not parse as a date — a present-but-empty date string is skipped
by JS truthiness and accepted. -/
lemma validateSearchOptions_ne_ok_of_flag (parseOk : String → Bool) (o : SearchOptions)
    (hflag : limitBad o = true ∨ thresholdBad o = true ∨ afterBad parseOk o = true ∨
      beforeBad parseOk o = true) :
    validateSearchOptions parseOk o ≠ .ok () := by
  intro hok
  simp only [validateSearchOptions] at hok
  split at hok
  · simp at hok
  split at hok
  · simp at hok
  split at hok
  · simp at hok
  split at hok
  · simp at hok
  rename_i h1 h2 h3 h4
  rcases hflag with hf | hf | hf | hf <;> simp_all

theorem validateSearchOptions_error_iff (parseOk : String → Bool) (o : SearchOptions) :
    validateSearchOptions parseOk o ≠ .ok () ↔
      ((∃ l, o.limit = some l ∧ (l < 1 ∨ 20 < l)) ∨
       (∃ t, o.scoreThreshold = some t ∧ (t < 0 ∨ 1 < t)) ∨
       (∃ f a, o.filters = some f ∧ f.after = some a ∧ a ≠ "" ∧ parseOk a = false) ∨
       (∃ f b, o.filters = some f ∧ f.before = some b ∧ b ≠ "" ∧ parseOk b = false)) := by
  constructor
  · intro h
    by_cases h1 : limitBad o
    · left
      rcases hl : o.limit with _ | l
      · simp [limitBad, hl] at h1
      · exact ⟨l, rfl, by simpa [limitBad, hl] using h1⟩
    by_cases h2 : thresholdBad o
    · right; left
      rcases ht : o.scoreThreshold with _ | t
      · simp [thresholdBad, ht] at h2
      · exact ⟨t, rfl, by simpa [thresholdBad, ht] using h2⟩
    by_cases h3 : afterBad parseOk o
    · right; right; left
      rcases hf : o.filters with _ | f
      · simp [afterBad, hf] at h3
      rcases ha : f.after with _ | a
      · simp [afterBad, hf, ha] at h3
      refine ⟨f, a, rfl, ha, ?_⟩
      simpa [afterBad, hf, ha] using h3
    by_cases h4 : beforeBad parseOk o
    · right; right; right
      rcases hf : o.filters with _ | f
      · simp [beforeBad, hf] at h4
      rcases hb : f.before with _ | b
      · simp [beforeBad, hf, hb] at h4
      refine ⟨f, b, rfl, hb, ?_⟩
      simpa [beforeBad, hf, hb] using h4
    exact absurd (by simp [validateSearchOptions, h1, h2, h3, h4] :
      validateSearchOptions parseOk o = .ok ()) h
  · intro h
    apply validateSearchOptions_ne_ok_of_flag
    rcases h with ⟨l, hl, hout⟩ | ⟨t, ht, hout⟩ | ⟨f, a, hf, ha, hne, hp⟩ | ⟨f, b, hf, hb, hne, hp⟩
    · exact Or.inl (by simp [limitBad, hl]; exact hout)
    · exact Or.inr (Or.inl (by simp [thresholdBad, ht]; exact hout))
    · exact Or.inr (Or.inr (Or.inl (by simp [afterBad, hf, ha, hne, hp])))
    · exact Or.inr (Or.inr (Or.inr (by simp [beforeBad, hf, hb, hne, hp])))

/-- The C6 counterexample options: an `after` date filter that is present
but the empty string. -/
def c6Opts : SearchOptions := { filters := some { after := some "" } }

/-- A model of `Date.parse` failing on every string; in particular
`Date.parse("")` is `NaN` in JS, so `c6Parse "" = false` agrees with it. -/
def c6Parse : String → Bool := fun _ => false

/-- C6 counterexample: the `after` filter is present and does not parse,
yet `validateSearchOptions` accepts the options — refuting the claim's
"fails if ... an after/before date filter is present and does not parse":
the empty string is falsy, so the check is skipped. -/
theorem validateSearchOptions_empty_after_accepted :
    validateSearchOptions c6Parse c6Opts = .ok () ∧
    (c6Opts.filters.bind SearchFilters.after = some "" ∧ c6Parse "" = false) := by
  exact ⟨by rfl, by rfl, by rfl⟩

/-- The natural-number form of `Math.ceil(l * 1.5)`. -/
lemma requestLimit_ceil (l : ℕ) : (((3 * l + 1) / 2 : ℕ) : ℤ) = ⌈(l : ℚ) * (3 / 2)⌉ := by
  rcases Nat.even_or_odd l with ⟨k, hk⟩ | ⟨k, hk⟩
  · subst hk
    have h1 : ((k + k : ℕ) : ℚ) * (3 / 2) = ((3 * k : ℤ) : ℚ) := by push_cast; ring
    have h2 : (3 * (k + k) + 1) / 2 = 3 * k := by omega
    rw [h1, Int.ceil_intCast, h2]
    push_cast; ring
  · subst hk
    have h2 : (3 * (2 * k + 1) + 1) / 2 = 3 * k + 2 := by omega
    rw [h2]
    symm
    rw [Int.ceil_eq_iff]
    constructor
    · push_cast
      linarith
    · push_cast
      linarith

/-- C7: `searchSimilar` defaults `limit` to `5` and `scoreThreshold` to
`0.7` when absent, requests `ceil(limit * 1.5)` candidates from the
store, and truncates the mapped response to (at most) exactly `limit`
results. -/
theorem searchSimilar_spec
    (store : List ℚ → ℕ → ℚ → Option (List FilterCond) → List QdrantHit)
    (queryVector : List ℚ) (o : QSearchOptions) :
    searchLimit { o with limit := none } = 5 ∧
    searchThreshold { o with scoreThreshold := none } = 7/10 ∧
    ((requestLimit o : ℤ) = ⌈(searchLimit o : ℚ) * (3 / 2)⌉) ∧
    (searchSimilar store queryVector o).length =
      min (searchLimit o)
        (store queryVector (requestLimit o) (searchThreshold o) (searchFilterArg o)).length := by
  refine ⟨rfl, rfl, requestLimit_ceil (searchLimit o), ?_⟩
  simp [searchSimilar]

/-- C8: `getPaginationDetails` computes `totalPages` as the ceiling of
`total / pageSize` (characterized as the least `n` with
`total ≤ n * pageSize`), clamps the requested page into `[1, totalPages]`
(observable through `offset = (clampedPage - 1) * pageSize`), and in
particular maps `total = 45, pageSize = 20, page = 5` to `totalPages = 3`
with the page clamped to `3` (`offset = 40`). -/
theorem getPaginationDetails_spec (total page pageSize : ℕ) (hps : 0 < pageSize) :
    (∀ n : ℕ, (getPaginationDetails total page pageSize).totalPages ≤ n ↔
        total ≤ n * pageSize) ∧
    (getPaginationDetails total page pageSize).offset =
      ((min (max 1 page) (getPaginationDetails total page pageSize).totalPages : Int) - 1) *
        pageSize ∧
    (1 ≤ (getPaginationDetails total page pageSize).totalPages →
      1 ≤ min (max 1 page) (getPaginationDetails total page pageSize).totalPages ∧
      min (max 1 page) (getPaginationDetails total page pageSize).totalPages ≤
        (getPaginationDetails total page pageSize).totalPages ∧
      0 ≤ (getPaginationDetails total page pageSize).offset) ∧
    (getPaginationDetails total page pageSize).limit = pageSize ∧
    ((getPaginationDetails 45 5 20).totalPages = 3 ∧
     (getPaginationDetails 45 5 20).offset = (3 - 1) * 20) := by
  have hz : (0 : Int) < (pageSize : Int) := by exact_mod_cast hps
  refine ⟨?_, ?_, ?_, rfl, by decide, by decide⟩
  · intro n
    simp only [getPaginationDetails]
    rw [Int.toNat_le, neg_le, Int.le_ediv_iff_mul_le hz, neg_mul, neg_le_neg_iff]
    constructor
    · intro h; exact_mod_cast h
    · intro h; exact_mod_cast h
  · simp [getPaginationDetails]
  · intro h1
    simp only [getPaginationDetails] at h1 ⊢
    refine ⟨le_min (le_max_left 1 page) h1, min_le_right _ _, ?_⟩
    have h2 : (1 : Int) ≤
        ((min (max 1 page) ((-((-(total : Int)) / pageSize)).toNat) : ℕ) : Int) := by
      exact_mod_cast le_min (le_max_left 1 page) h1
    have h3 : (0 : Int) ≤ (pageSize : Int) := by positivity
    exact mul_nonneg (by linarith) h3

/-- Witness for C8 at the claim's own instance
`total = 45, page = 5, pageSize = 20`. -/
theorem getPaginationDetails_spec_witness :
    0 < 20 ∧
    ((∀ n : ℕ, (getPaginationDetails 45 5 20).totalPages ≤ n ↔ 45 ≤ n * 20) ∧
     (getPaginationDetails 45 5 20).offset =
       ((min (max 1 5) (getPaginationDetails 45 5 20).totalPages : Int) - 1) * 20 ∧
     (1 ≤ (getPaginationDetails 45 5 20).totalPages →
       1 ≤ min (max 1 5) (getPaginationDetails 45 5 20).totalPages ∧
       min (max 1 5) (getPaginationDetails 45 5 20).totalPages ≤
         (getPaginationDetails 45 5 20).totalPages ∧
       0 ≤ (getPaginationDetails 45 5 20).offset) ∧
     (getPaginationDetails 45 5 20).limit = 20 ∧
     ((getPaginationDetails 45 5 20).totalPages = 3 ∧
      (getPaginationDetails 45 5 20).offset = (3 - 1) * 20)) :=
  ⟨by norm_num, getPaginationDetails_spec 45 5 20 (by norm_num)⟩

/-! ## The Qdrant store model (`qdrant-client.ts`, `api-client.ts`,
`add-documentation.ts`) -/

/-- A stored point: `{id, vector, payload}` with the payload fields spread
from the document metadata plus the per-chunk fields. -/
structure QdrantPoint where
  id : ℕ
  vector : List ℚ
  url : String
  title : String
  domain : String
  timestamp : String
  contentType : String
  wordCount : ℕ
  hasCode : Bool
  content : List Char
  chunkIndex : ℕ
  totalChunks : ℕ
deriving DecidableEq, Repr

/-- The collection's contents (the state mutated by upsert/delete). -/
abbrev QdrantState := List QdrantPoint

/-- Document metadata without the per-chunk fields
(`Omit<DocumentMetadata, 'chunkIndex' | 'totalChunks'>`). -/
structure DocMetadataBase where
  url : String
  title : String
  domain : String
  timestamp : String
  contentType : String
  wordCount : ℕ
  hasCode : Bool
deriving DecidableEq, Repr

/-- `QdrantError` values, tagged by message. -/
inductive QdrantErr where
  /-- "Number of chunks does not match number of embeddings" -/
  | lengthMismatch
  /-- "Invalid URL format" (from `validateUrl`, rethrown wrapped) -/
  | invalidUrl
deriving DecidableEq, Repr

/-- JS 32-bit signed-integer wrap-around (the effect of `hash & hash`
and of `<<` in `generatePointId`). -/
def toInt32 (n : Int) : Int :=
  (n + 2 ^ 31) % 2 ^ 32 - 2 ^ 31

/-- One step of the `generatePointId` hash loop:
`hash = ((hash << 5) - hash) + char; hash = hash & hash`.
`charCodeAt` is the character's code (UTF-16 unit; identical to the code
point on the basic plane). -/
def hashStep (h : Int) (c : Char) : Int :=
  toInt32 (toInt32 (h * 32) - h + c.toNat)

/-- The accumulated hash of `generatePointId`. -/
def jsHash (s : List Char) : Int :=
  s.foldl hashStep 0

/-- `QdrantWrapper.generatePointId`: `Math.abs` of the 32-bit hash of
`` `${url}:${chunkIndex}` ``. -/
def generatePointId (url : String) (chunkIndex : ℕ) : ℕ :=
  (jsHash (url.data ++ ':' :: (Nat.repr chunkIndex).data)).natAbs

/-- The point list built by `storeDocumentChunks`'s `chunks.map`: the
source pairs `chunks[index]` with `embeddings[index]`, which for lists of
equal length (the only case reaching this code) is exactly `zipWith`. -/
def buildPoints (chunks : List TextChunkM) (embeddings : List (List ℚ))
    (md : DocMetadataBase) : List QdrantPoint :=
  List.zipWith
    (fun (ch : TextChunkM) emb =>
      { id := generatePointId md.url ch.index
        vector := emb
        url := md.url, title := md.title, domain := md.domain
        timestamp := md.timestamp, contentType := md.contentType
        wordCount := md.wordCount, hasCode := md.hasCode
        content := ch.content
        chunkIndex := ch.index
        totalChunks := chunks.length })
    chunks embeddings

/-- Qdrant `upsert`: points whose id matches an incoming point are
replaced, the incoming points are stored. -/
def upsertPoints (st : QdrantState) (ps : List QdrantPoint) : QdrantState :=
  st.filter (fun q => !(ps.any (fun p => p.id == q.id))) ++ ps

/-- `QdrantWrapper.storeDocumentChunks` as a state transition: the
mismatch check throws before the upsert, leaving the store untouched. -/
def storeDocumentChunks (chunks : List TextChunkM) (embeddings : List (List ℚ))
    (md : DocMetadataBase) (st : QdrantState) : Except QdrantErr Unit × QdrantState :=
  if chunks.length ≠ embeddings.length then (.error .lengthMismatch, st)
  else (.ok (), upsertPoints st (buildPoints chunks embeddings md))

/-- `QdrantWrapper.documentExists`: URL validation (`new URL(url)`,
modelled by the external predicate `urlValid`) followed by a
scroll-with-filter existence check. -/
def documentExists (urlValid : String → Bool) (url : String) (st : QdrantState) :
    Except QdrantErr Bool :=
  if urlValid url then .ok (st.any (fun p => p.url == url)) else .error .invalidUrl

/-- `QdrantWrapper.removeDocument`: deletes every point whose `url`
matches exactly. -/
def removeDocument (urlValid : String → Bool) (url : String) (st : QdrantState) :
    Except QdrantErr QdrantState :=
  if urlValid url then .ok (st.filter (fun p => p.url != url)) else .error .invalidUrl

/-- A JS word character (`\w` = `[A-Za-z0-9_]`). -/
def isWordChar (c : Char) : Bool :=
  c.isAlphanum || c = '_'

/-- A word boundary next to an occurrence: text edge or non-word
character. -/
def boundaryOk : Option Char → Bool
  | some c => !isWordChar c
  | none => true

/-- Whether `pat` occurs in the text with `\b` boundaries on both sides
(`prev` is the character before the current position). -/
def hasWordAt (pat : List Char) : Option Char → List Char → Bool
  | prev, [] => decide (List.take pat.length [] = pat) && boundaryOk prev
  | prev, c :: rest =>
      (decide ((c :: rest).take pat.length = pat) && boundaryOk prev &&
        boundaryOk ((c :: rest).drop pat.length).head?) ||
      hasWordAt pat (some c) rest

/-- The `ApiClient.addDocument` `hasCode` heuristic:
`/```|\bfunction\b|\bclass\b|\bconst\b|\blet\b|\bvar\b/.test(content)`. -/
def hasCodeHeuristic (s : List Char) : Bool :=
  containsTicks s ||
    [("function" : String), "class", "const", "let", "var"].any
      (fun kw => hasWordAt kw.data none s)

/-- The inner errors collected by `ApiClient.addDocument`'s `catch`. -/
inductive ApiAddCause where
  /-- `McpError(InvalidRequest, "Document with URL ... already exists")` -/
  | duplicate (url : String)
  /-- a `QdrantError` from the store calls -/
  | qdrant (e : QdrantErr)
deriving DecidableEq, Repr

/-- The error surfaced by `ApiClient.addDocument`: its `catch` block
rethrows every inner error as
`McpError(InternalError, "Failed to add document: ...")`. -/
inductive ApiAddErr where
  | wrapped (cause : ApiAddCause)
deriving DecidableEq, Repr

/-- The `Document` input of `ApiClient.addDocument` (`types.ts`): `url`,
`content`, and the optional metadata fields the method reads. -/
structure DocumentIn where
  url : String
  content : List Char
  title : Option String := none
  contentTypeMeta : Option String := none
deriving DecidableEq, Repr

/-- `ApiClient.addDocument` as a state transition.  External
collaborators are parameters: `embed` (the embedding service), `urlValid`
(`new URL` success), `hostOf` (`new URL(url).hostname`), `now`
(`new Date().toISOString()`).  A duplicate URL fails before anything is
stored; the thrown duplicate error is wrapped by the method's own
`catch`.  (`title || ''` and `contentType || 'text/plain'` are modelled
with `Option.getD`; a present-but-empty string behaves identically except
for the unused `contentType` fallback.) -/
def apiAddDocument (embed : List Char → List ℚ) (urlValid : String → Bool)
    (hostOf : String → String) (now : String) (doc : DocumentIn)
    (st : QdrantState) : Except ApiAddErr Unit × QdrantState :=
  match documentExists urlValid doc.url st with
  | .error e => (.error (.wrapped (.qdrant e)), st)
  | .ok true => (.error (.wrapped (.duplicate doc.url)), st)
  | .ok false =>
      let emb := embed doc.content
      let chunk : TextChunkM :=
        { content := doc.content, index := 0, startPosition := 0,
          endPosition := doc.content.length,
          isCodeBlock := containsTicks doc.content }
      let md : DocMetadataBase :=
        { url := doc.url, title := doc.title.getD "", domain := hostOf doc.url,
          timestamp := now, contentType := doc.contentTypeMeta.getD "text/plain",
          wordCount := (jsSplitWs doc.content).length,
          hasCode := hasCodeHeuristic doc.content }
      match storeDocumentChunks [chunk] [emb] md st with
      | (.error e, st') => (.error (.wrapped (.qdrant e)), st')
      | (.ok (), st') => (.ok (), st')

/-- The content record produced by the content-fetching collaborator of
`AddDocumentationTool` (`ContentFetcher.fetchContent`). -/
structure ContentResult where
  content : List Char
  title : String
  timestamp : String
  contentType : String
  wordCount : ℕ
  hasCode : Bool
deriving DecidableEq, Repr

/-- `AddDocumentationError` / `QdrantError` outcomes of
`AddDocumentationTool.addDocument`, tagged by failing step. -/
inductive ToolErr where
  | healthCheck
  | urlValidation
  | fetchFailed
  | chunkFailed (e : ChunkError)
  | qdrant (e : QdrantErr)
deriving DecidableEq, Repr

/-- `AddDocumentationResult`. -/
structure ToolAddResult where
  url : String
  title : String
  chunks : ℕ
  wordCount : ℕ
deriving DecidableEq, Repr

/-- The chunking options `AddDocumentationTool.addDocument` passes to
`TextChunker.chunkText`. -/
def toolChunkOpts : PartialChunkOptions :=
  { maxChunkSize := some 1500, minChunkSize := some 100, overlap := some 200,
    respectCodeBlocks := some true }

/-- `AddDocumentationTool.addDocument` as a state transition.  External
collaborators are parameters: `healthy` (`isHealthy`), `processURL`
(returns `(isValid, normalizedUrl, domain)`), `urlValid` (the wrapper's
own URL check), `fetch` (`ContentFetcher.fetchContent`, `none` on
failure), `embed` (one embedding per chunk, as the batched OpenAI call
returns).  When the document already exists it is REMOVED and then the
new version is stored (`initializeCollection` does not affect the point
set and is not modelled). -/
def toolAddDocument (healthy : Bool) (processURL : String → Bool × String × String)
    (urlValid : String → Bool) (fetch : String → Option ContentResult)
    (embed : List Char → List ℚ) (url : String) (st : QdrantState) :
    Except ToolErr ToolAddResult × QdrantState :=
  if healthy = false then (.error .healthCheck, st)
  else
    let pu := processURL url
    if pu.1 = false then (.error .urlValidation, st)
    else
      let nurl := pu.2.1
      match documentExists urlValid nurl st with
      | .error e => (.error (.qdrant e), st)
      | .ok found =>
          match (if found then removeDocument urlValid nurl st else .ok st) with
          | .error e => (.error (.qdrant e), st)
          | .ok st₁ =>
              match fetch nurl with
              | none => (.error .fetchFailed, st₁)
              | some content =>
                  match chunkText content.content toolChunkOpts with
                  | .error e => (.error (.chunkFailed e), st₁)
                  | .ok chunks =>
                      let embeddings := chunks.map (fun ch => embed ch.content)
                      let md : DocMetadataBase :=
                        { url := nurl, title := content.title, domain := pu.2.2,
                          timestamp := content.timestamp,
                          contentType := content.contentType,
                          wordCount := content.wordCount, hasCode := content.hasCode }
                      match storeDocumentChunks chunks embeddings md st₁ with
                      | (.error e, st₂) => (.error (.qdrant e), st₂)
                      | (.ok (), st₂) =>
                          (.ok { url := nurl, title := content.title,
                                 chunks := chunks.length,
                                 wordCount := content.wordCount }, st₂)

/-- C9 (amended, part about the ApiClient path): adding a document whose
`url` already exists in the store fails — the duplicate error, wrapped by
the method's catch-all — and leaves the store exactly unchanged. -/
theorem apiAddDocument_duplicate_fails (embed : List Char → List ℚ)
    (urlValid : String → Bool) (hostOf : String → String) (now : String)
    (doc : DocumentIn) (st : QdrantState)
    (hv : urlValid doc.url = true)
    (hex : st.any (fun p => p.url == doc.url) = true) :
    apiAddDocument embed urlValid hostOf now doc st =
      (.error (.wrapped (.duplicate doc.url)), st) := by
  simp [apiAddDocument, documentExists, hv, hex]

/-- A pre-existing point with URL `"u"` (the C9 scenario's initial
store). -/
def c9Point : QdrantPoint :=
  { id := 0, vector := [], url := "u", title := "", domain := "",
    timestamp := "", contentType := "", wordCount := 0, hasCode := false,
    content := [], chunkIndex := 0, totalChunks := 1 }

/-- Initial store for the C9 scenario: the document `"u"` exists. -/
def c9State : QdrantState := [c9Point]

/-- Content fetcher collaborator for the C9 scenario. -/
def c9Fetch : String → Option ContentResult := fun _ =>
  some { content := "hello.".data, title := "T", timestamp := "ts",
         contentType := "text/plain", wordCount := 1, hasCode := false }

/-- Embedding collaborator for the C9 scenario. -/
def c9Embed : List Char → List ℚ := fun _ => [1]

/-- URL processor collaborator for the C9 scenario (valid, identity
normalization). -/
def c9Process : String → Bool × String × String := fun s => (true, s, "d")

/-- URL validity collaborator for the C9 scenario. -/
def c9Valid : String → Bool := fun _ => true

/-- C9 counterexample: for the url `"u"` that already exists in the
store, `AddDocumentationTool.addDocument` does NOT fail with a duplicate
error — it succeeds, removes the old document, and stores the new
version, i.e. this add path implicitly replaces the existing document. -/
theorem toolAddDocument_replaces_existing :
    (toolAddDocument true c9Process c9Valid c9Fetch c9Embed "u" c9State).1 =
      .ok { url := "u", title := "T", chunks := 1, wordCount := 1 } ∧
    (toolAddDocument true c9Process c9Valid c9Fetch c9Embed "u" c9State).2 ≠ c9State := by
  exact ⟨by rfl, by decide⟩

/-- Witness for C9's amended theorem: concrete duplicate add through the
ApiClient path. -/
theorem apiAddDocument_duplicate_fails_witness :
    c9Valid "u" = true ∧ c9State.any (fun p => p.url == "u") = true ∧
    apiAddDocument c9Embed c9Valid (fun _ => "d") "ts"
        { url := "u", content := [] } c9State =
      (.error (.wrapped (.duplicate "u")), c9State) :=
  ⟨by decide, by decide,
    apiAddDocument_duplicate_fails c9Embed c9Valid (fun _ => "d") "ts"
      { url := "u", content := [] } c9State (by decide) (by decide)⟩

/-- C10: `storeDocumentChunks` fails with the length-mismatch
`QdrantError` — leaving the store untouched — exactly when the chunk and
embedding counts differ; otherwise it upserts one point per chunk, the
`i`-th point pairing chunk `i` with embedding `i` and carrying
`totalChunks` equal to the batch size. -/
theorem storeDocumentChunks_spec (chunks : List TextChunkM)
    (embeddings : List (List ℚ)) (md : DocMetadataBase) (st : QdrantState) :
    (chunks.length ≠ embeddings.length →
      storeDocumentChunks chunks embeddings md st = (.error .lengthMismatch, st)) ∧
    (chunks.length = embeddings.length →
      (storeDocumentChunks chunks embeddings md st).1 = .ok () ∧
      (storeDocumentChunks chunks embeddings md st).2 =
        upsertPoints st (buildPoints chunks embeddings md) ∧
      ∀ i (h1 : i < chunks.length) (h2 : i < embeddings.length)
          (h3 : i < (buildPoints chunks embeddings md).length),
        ((buildPoints chunks embeddings md).get ⟨i, h3⟩).vector =
            embeddings.get ⟨i, h2⟩ ∧
        ((buildPoints chunks embeddings md).get ⟨i, h3⟩).content =
            (chunks.get ⟨i, h1⟩).content ∧
        ((buildPoints chunks embeddings md).get ⟨i, h3⟩).chunkIndex =
            (chunks.get ⟨i, h1⟩).index ∧
        ((buildPoints chunks embeddings md).get ⟨i, h3⟩).totalChunks =
            chunks.length) := by
  constructor
  · intro h
    simp [storeDocumentChunks, h]
  · intro h
    refine ⟨by simp [storeDocumentChunks, h], by simp [storeDocumentChunks, h], ?_⟩
    intro i h1 h2 h3
    simp [buildPoints, List.get_eq_getElem, List.getElem_zipWith]

/-- A concrete chunk for the C10 witness. -/
def c10Chunk : TextChunkM :=
  { content := ['a'], index := 0, startPosition := 0, endPosition := 1,
    isCodeBlock := false }

/-- Concrete metadata for the C10 witness. -/
def c10Md : DocMetadataBase :=
  { url := "u", title := "t", domain := "d", timestamp := "ts",
    contentType := "text/plain", wordCount := 1, hasCode := false }

/-- Witness for C10: both hypotheses exercised at concrete inputs — a
mismatched call errors with the store unchanged, a matched call stores
chunk 0 paired with embedding 0. -/
theorem storeDocumentChunks_spec_witness :
    (storeDocumentChunks [c10Chunk] [] c10Md [] = (.error .lengthMismatch, [])) ∧
    ((storeDocumentChunks [c10Chunk] [[1]] c10Md []).1 = .ok () ∧
     ((buildPoints [c10Chunk] [[1]] c10Md).get ⟨0, by decide⟩).vector = [1] ∧
     ((buildPoints [c10Chunk] [[1]] c10Md).get ⟨0, by decide⟩).totalChunks = 1) := by
  refine ⟨(storeDocumentChunks_spec [c10Chunk] [] c10Md []).1 (by decide), ?_⟩
  have h := (storeDocumentChunks_spec [c10Chunk] [[1]] c10Md []).2 (by decide)
  refine ⟨h.1, ?_, ?_⟩
  · have := (h.2.2 0 (by decide) (by decide) (by decide)).1
    simpa using this
  · have := (h.2.2 0 (by decide) (by decide) (by decide)).2.2.2
    simpa using this

/-! ## The amended chunk-size bound (C1)

`chunkSegment` never splits a single boundary block and seeds each new
buffer with overlap words, so the `maxChunkSize` bound of the claim fails
in general (see `chunkText_oversized_nonfinal_chunk`).  The bound that
does hold: when every block fits the budget together with `minChunkSize`,
words are short, and the overlap seed fits, every prose chunk's length is
at most `maxChunkSize + 1` (the `+ 1` because the flush guard ignores the
joining space), while code segments are emitted whole with no cap.  The
next definitions track the length of the longest whitespace-free run. -/

/-- Scanner for `wordsBounded`: `k` is the length of the current
whitespace-free run; every completed run must stay within `w`. -/
def goRuns (w : ℕ) : ℕ → List Char → Bool
  | _, [] => true
  | k, c :: r =>
      if isWs c then goRuns w 0 r
      else decide (k + 1 ≤ w) && goRuns w (k + 1) r

/-- Every whitespace-free run (word) of `s` has length at most `w`. -/
def wordsBounded (w : ℕ) (s : List Char) : Bool :=
  goRuns w 0 s

lemma goRuns_append {w : ℕ} {c : Char} (hc : isWs c = true) :
    ∀ (x : List Char) (k : ℕ) (y : List Char),
      goRuns w k x = true → goRuns w 0 y = true →
      goRuns w k (x ++ c :: y) = true := by
  intro x
  induction x with
  | nil =>
      intro k y _ hy
      simpa [goRuns, hc] using hy
  | cons a x' ih =>
      intro k y hx hy
      by_cases ha : isWs a
      · simp only [goRuns, ha, if_true] at hx
        simpa [goRuns, ha] using ih 0 y hx hy
      · simp [goRuns, ha] at hx
        simp [List.cons_append, goRuns, ha]
        exact ⟨hx.1, ih (k + 1) y hx.2 hy⟩

lemma goRuns_of_wsFree {w : ℕ} :
    ∀ (p : List Char) (k : ℕ), (∀ c ∈ p, isWs c = false) → k + p.length ≤ w →
      goRuns w k p = true := by
  intro p
  induction p with
  | nil => intro k _ _; simp [goRuns]
  | cons c q ih =>
      intro k hfree hlen
      have hc : isWs c = false := hfree c (by simp)
      simp only [List.length_cons] at hlen
      simp [goRuns, hc]
      exact ⟨by omega, ih (k + 1) (fun d hd => hfree d (by simp [hd])) (by omega)⟩

lemma wGo_pieces_len {w : ℕ} :
    ∀ (s : List Char) (mode : Bool) (cur : List Char),
      (mode = true → cur = []) → cur.length ≤ w → goRuns w cur.length s = true →
      ∀ p ∈ wGo mode cur s, p.length ≤ w := by
  intro s
  induction s with
  | nil =>
      intro mode cur _ hlen _ p hp
      cases mode <;> simp [wGo] at hp <;> simp [hp, hlen]
  | cons c rest ih =>
      intro mode cur hmc hlen hrun p hp
      cases mode with
      | true =>
          have hcur : cur = [] := hmc rfl
          subst hcur
          by_cases hc : isWs c
          · simp only [wGo, hc, if_true] at hp
            refine ih true [] (fun _ => rfl) (by simp) ?_ p hp
            simpa [goRuns, hc] using hrun
          · simp only [wGo, hc, if_false] at hp
            simp only [List.length_nil] at hrun
            simp [goRuns, hc] at hrun
            exact ih false [c] (by simp) (by simpa using hrun.1)
              (by simpa using hrun.2) p hp
      | false =>
          by_cases hc : isWs c
          · simp only [wGo, hc, if_true, List.mem_cons] at hp
            rcases hp with hp | hp
            · simp [hp, hlen]
            · refine ih true [] (fun _ => rfl) (by simp) ?_ p hp
              simpa [goRuns, hc] using hrun
          · simp only [wGo, hc, if_false] at hp
            simp [goRuns, hc] at hrun
            refine ih false (c :: cur) (by simp) ?_ ?_ p hp
            · simpa using hrun.1
            · simpa using hrun.2

lemma jsSplitWs_pieces_len {w : ℕ} (s : List Char) (h : wordsBounded w s = true) :
    ∀ p ∈ jsSplitWs s, p.length ≤ w :=
  wGo_pieces_len s false [] (by simp) (by simp) h

lemma wGo_pieces_wsFree :
    ∀ (s : List Char) (mode : Bool) (cur : List Char),
      (∀ c ∈ cur, isWs c = false) →
      ∀ p ∈ wGo mode cur s, ∀ c ∈ p, isWs c = false := by
  intro s
  induction s with
  | nil =>
      intro mode cur hcur p hp c hc
      cases mode <;> simp [wGo] at hp <;> exact hcur c (by simpa [hp] using hc)
  | cons a rest ih =>
      intro mode cur hcur p hp c hc
      cases mode with
      | true =>
          by_cases ha : isWs a
          · simp only [wGo, ha, if_true] at hp
            exact ih true cur hcur p hp c hc
          · simp only [wGo, ha, if_false] at hp
            exact ih false [a] (by simpa using (by simpa using ha : isWs a = false)) p hp c hc
      | false =>
          by_cases ha : isWs a
          · simp only [wGo, ha, if_true, List.mem_cons] at hp
            rcases hp with hp | hp
            · exact hcur c (by simpa [hp] using hc)
            · exact ih true [] (by simp) p hp c hc
          · simp only [wGo, ha, if_false] at hp
            refine ih false (a :: cur) ?_ p hp c hc
            intro d hd
            rcases List.mem_cons.mp hd with hd | hd
            · subst hd; simpa using ha
            · exact hcur d hd

lemma jsSplitWs_pieces_wsFree (s : List Char) :
    ∀ p ∈ jsSplitWs s, ∀ c ∈ p, isWs c = false :=
  wGo_pieces_wsFree s false [] (by simp)

lemma jsJoinSp_length_le {w : ℕ} :
    ∀ (l : List (List Char)), (∀ p ∈ l, p.length ≤ w) →
      (jsJoinSp l).length ≤ l.length * (w + 1) := by
  intro l
  induction l with
  | nil => intro _; simp [jsJoinSp]
  | cons x t ih =>
      cases t with
      | nil =>
          intro h
          have := h x (by simp)
          simp [jsJoinSp]; omega
      | cons y t' =>
          intro h
          have h1 := h x (by simp)
          have h2 := ih (fun p hp => h p (by simp [hp]))
          simp only [jsJoinSp, List.length_append, List.length_cons]
          simp only [List.length_cons] at h2 ⊢
          have hmul : (t'.length + 1 + 1) * (w + 1) = (t'.length + 1) * (w + 1) + (w + 1) := by
            ring
          rw [hmul]
          omega

lemma jsJoinSp_wordsBounded {w : ℕ} :
    ∀ (l : List (List Char)),
      (∀ p ∈ l, (∀ c ∈ p, isWs c = false) ∧ p.length ≤ w) →
      wordsBounded w (jsJoinSp l) = true := by
  intro l
  induction l with
  | nil => intro _; simp [jsJoinSp, wordsBounded, goRuns]
  | cons x t ih =>
      cases t with
      | nil =>
          intro h
          exact goRuns_of_wsFree x 0 (h x (by simp)).1 (by simpa using (h x (by simp)).2)
      | cons y t' =>
          intro h
          have hx := h x (by simp)
          have ht := ih (fun p hp => h p (by simp [hp]))
          simp only [jsJoinSp, wordsBounded] at ht ⊢
          exact goRuns_append (by decide) x 0 _
            (goRuns_of_wsFree x 0 hx.1 (by simpa using hx.2)) ht

lemma jsSlice_neg_length_le {α : Type _} (W : Int) (hW : 1 ≤ W) (xs : List α) :
    (jsSlice (-W) xs).length ≤ W.toNat := by
  simp only [jsSlice]
  rw [if_pos (by omega : -W < 0)]
  simp only [List.length_drop]
  omega

lemma jsSlice_neg_subset {α : Type _} (W : Int) (xs : List α) :
    ∀ p ∈ jsSlice (-W) xs, p ∈ xs := by
  simp only [jsSlice]
  split <;> intro p hp <;> exact List.drop_subset _ _ hp

/-- The per-block hypotheses of the amended size bound: the block fits the
budget left by `minChunkSize`, its words are at most `w` long, and an
overlap seed (`overlapWordCount` words plus the block) fits the budget. -/
def goodBlock (o : ChunkOptions) (w : ℕ) (b : List Char) : Prop :=
  (b.length : Int) + o.minChunkSize ≤ o.maxChunkSize ∧
  wordsBounded w b = true ∧
  effOverlapW o * ((w : Int) + 1) + b.length ≤ o.maxChunkSize

instance (o : ChunkOptions) (w : ℕ) (b : List Char) : Decidable (goodBlock o w b) := by
  unfold goodBlock; infer_instance

lemma seed_bound (o : ChunkOptions) (w : ℕ) (cc : List Char)
    (hW : 1 ≤ effOverlapW o) (hccw : wordsBounded w cc = true) :
    ((jsJoinSp (jsSlice (-(effOverlapW o)) (jsSplitWs cc))).length : Int) ≤
      effOverlapW o * ((w : ℕ) + 1 : Int) ∧
    wordsBounded w (jsJoinSp (jsSlice (-(effOverlapW o)) (jsSplitWs cc))) = true := by
  set ov := jsSlice (-(effOverlapW o)) (jsSplitWs cc) with hov
  have hsub : ∀ p ∈ ov, p ∈ jsSplitWs cc := jsSlice_neg_subset _ _
  have hlen : ∀ p ∈ ov, p.length ≤ w := fun p hp =>
    jsSplitWs_pieces_len cc hccw p (hsub p hp)
  have hfree : ∀ p ∈ ov, ∀ c ∈ p, isWs c = false := fun p hp =>
    jsSplitWs_pieces_wsFree cc p (hsub p hp)
  constructor
  · have h1 : (jsJoinSp ov).length ≤ ov.length * (w + 1) := jsJoinSp_length_le ov hlen
    have h2 : ov.length ≤ (effOverlapW o).toNat :=
      jsSlice_neg_length_le (effOverlapW o) hW (jsSplitWs cc)
    have h3 : ((effOverlapW o).toNat : Int) = effOverlapW o := Int.toNat_of_nonneg (by omega)
    calc ((jsJoinSp ov).length : Int) ≤ (ov.length : Int) * ((w : Int) + 1) := by
          exact_mod_cast Nat.le_trans h1 (Nat.mul_le_mul_right _ le_rfl)
      _ ≤ ((effOverlapW o).toNat : Int) * ((w : Int) + 1) := by
          have : (ov.length : Int) ≤ ((effOverlapW o).toNat : Int) := by exact_mod_cast h2
          nlinarith [this]
      _ = effOverlapW o * ((w : Int) + 1) := by rw [h3]
  · exact jsJoinSp_wordsBounded ov (fun p hp => ⟨hfree p hp, hlen p hp⟩)

lemma csGo_bound (o : ChunkOptions) (w : ℕ) (sp : Int) (si : ℕ)
    (hm0 : 0 < o.minChunkSize) (hW : 1 ≤ effOverlapW o) :
    ∀ (bs : List (List Char)) (chunks : List TextChunkM) (cc : List Char) (pos : Int),
      (∀ b ∈ bs, goodBlock o w b) →
      ((cc.length : Int) ≤ o.maxChunkSize + 1) → wordsBounded w cc = true →
      (∀ ch ∈ chunks, (ch.content.length : Int) ≤ o.maxChunkSize + 1) →
      ∀ ch ∈ csGo o sp si false bs chunks cc pos,
        (ch.content.length : Int) ≤ o.maxChunkSize + 1 := by
  intro bs
  induction bs with
  | nil =>
      intro chunks cc pos _ hcc _ hchunks ch hch
      simp only [csGo] at hch
      by_cases hcc0 : cc = []
      · rw [if_pos hcc0] at hch; exact hchunks ch hch
      · rw [if_neg hcc0] at hch
        rcases List.mem_append.mp hch with h | h
        · exact hchunks ch h
        · simp only [List.mem_singleton] at h
          rw [h]
          exact hcc
  | cons b bs' ih =>
      intro chunks cc pos hbs hcc hccw hchunks ch hch
      have hb : goodBlock o w b := hbs b (by simp)
      have hbs' : ∀ x ∈ bs', goodBlock o w x := fun x hx => hbs x (by simp [hx])
      simp only [csGo] at hch
      by_cases hguard : (cc ≠ [] ∧ ((cc.length : Int) + b.length > o.maxChunkSize) ∧
          ((cc.length : Int) ≥ o.minChunkSize))
      · rw [if_pos hguard] at hch
        have hseed := seed_bound o w cc hW hccw
        refine ih _ _ _ hbs' ?_ ?_ ?_ ch hch
        · simp only [List.length_append, List.length_cons]
          push_cast
          have := hseed.1
          have := hb.2.2
          omega
        · simp only [wordsBounded] at hseed ⊢
          exact goRuns_append (by decide) _ 0 b hseed.2 hb.2.1
        · intro c hc
          rcases List.mem_append.mp hc with h | h
          · exact hchunks c h
          · simp only [List.mem_singleton] at h
            rw [h]
            exact hcc
      · rw [if_neg hguard] at hch
        by_cases hcc0 : cc = []
        · rw [if_pos hcc0] at hch
          refine ih _ _ _ hbs' ?_ hb.2.1 hchunks ch hch
          have := hb.1
          omega
        · rw [if_neg hcc0] at hch
          have hsz : (cc.length : Int) + b.length ≤ o.maxChunkSize ∨
              (cc.length : Int) < o.minChunkSize := by
            by_contra hcon
            push_neg at hcon
            exact hguard ⟨hcc0, by omega, by omega⟩
          refine ih _ _ _ hbs' ?_ ?_ hchunks ch hch
          · simp only [List.length_append, List.length_cons]
            push_cast
            have := hb.1
            omega
          · simp only [wordsBounded] at hccw ⊢
            exact goRuns_append (by decide) cc 0 b hccw hb.2.1

/-- Every prose chunk produced by `chunkSegment` under the `goodBlock`
hypotheses has length at most `maxChunkSize + 1`. -/
lemma chunkSegment_prose_len (o : ChunkOptions) (w : ℕ) (sp : Int) (si : ℕ)
    (text : List Char) (hm0 : 0 < o.minChunkSize) (hmL : o.minChunkSize ≤ o.maxChunkSize)
    (hW : 1 ≤ effOverlapW o)
    (hblocks : ∀ b ∈ segBlocks text, goodBlock o w b) :
    ∀ ch ∈ chunkSegment text o sp si false,
      (ch.content.length : Int) ≤ o.maxChunkSize + 1 := by
  intro ch hch
  refine csGo_bound o w sp si hm0 hW (segBlocks text) [] [] 0 hblocks
    (by simp; omega) (by simp [wordsBounded, goRuns, jsSplitWs]) (by simp) ch ?_
  simpa [chunkSegment] using hch

/-- A code segment is always emitted as a single chunk holding the whole
segment (no size cap at all). -/
lemma chunkSegment_code_mem (o : ChunkOptions) (sp : Int) (si : ℕ) (text : List Char) :
    ∀ ch ∈ chunkSegment text o sp si true,
      ch.content = text ∧ ch.isCodeBlock = true := by
  intro ch hch
  by_cases htext : text = []
  · simp [chunkSegment, csGo, htext] at hch
  · simp [chunkSegment, csGo, htext] at hch
    simp [hch]

/-- The prose segments `chunkText` feeds to `chunkSegment` with
`isCodeBlock = false`, per configuration: the non-code segments of
`separateCodeBlocks` on the code-respecting branch, the `\f`-pages for
PDF, the non-blank paragraphs for DOCX, and the whole text otherwise. -/
def proseSegs (o : ChunkOptions) (text : List Char) : List (List Char) :=
  if o.respectCodeBlocks ∧ (o.fileType = some .text ∨ o.fileType = some .markdown) then
    ((separateCodeBlocks text).filter (fun sb => sb.2 = false)).map Prod.fst
  else
    match o.fileType.getD .text with
    | .pdf => jsSplitChar '\x0c' text
    | .docx => (docxSplit text).filter (fun pa => jsTrim pa ≠ [])
    | _ => [text]

lemma segLoop_bound (o : ChunkOptions) (w : ℕ) (segsAll : List (List Char × Bool))
    (hm0 : 0 < o.minChunkSize) (hmL : o.minChunkSize ≤ o.maxChunkSize)
    (hW : 1 ≤ effOverlapW o) :
    ∀ (segs : List (List Char × Bool)) (pos : Int) (chunks : List TextChunkM),
      (∀ sb ∈ segs, sb ∈ segsAll) →
      (∀ sb ∈ segs, sb.2 = false → ∀ b ∈ segBlocks sb.1, goodBlock o w b) →
      (∀ ch ∈ chunks,
        (ch.isCodeBlock = true ∧ (ch.content, true) ∈ segsAll) ∨
        (ch.content.length : Int) ≤ o.maxChunkSize + 1) →
      ∀ ch ∈ segLoop o segs pos chunks,
        (ch.isCodeBlock = true ∧ (ch.content, true) ∈ segsAll) ∨
        (ch.content.length : Int) ≤ o.maxChunkSize + 1 := by
  intro segs
  induction segs with
  | nil =>
      intro pos chunks _ _ hchunks ch hch
      simpa [segLoop] using hchunks ch (by simpa [segLoop] using hch)
  | cons sb rest ih =>
      intro pos chunks hmem hgood hchunks ch hch
      obtain ⟨seg, isCode⟩ := sb
      simp only [segLoop] at hch
      refine ih _ _ (fun x hx => hmem x (by simp [hx]))
        (fun x hx => hgood x (by simp [hx])) ?_ ch hch
      intro c hc
      rcases List.mem_append.mp hc with h | h
      · exact hchunks c h
      cases isCode with
      | true =>
          have := chunkSegment_code_mem o pos chunks.length seg c (by simpa using h)
          exact Or.inl ⟨this.2, this.1 ▸ hmem (seg, true) (by simp)⟩
      | false =>
          refine Or.inr (chunkSegment_prose_len o w 0 0 seg hm0 hmL hW ?_ c (by simpa using h))
          exact hgood (seg, false) (by simp) rfl

lemma pdfGo_bound (o : ChunkOptions) (w : ℕ)
    (hm0 : 0 < o.minChunkSize) (hmL : o.minChunkSize ≤ o.maxChunkSize)
    (hW : 1 ≤ effOverlapW o) :
    ∀ (pages : List (List Char)) (pos : Int) (chunks : List TextChunkM),
      (∀ pg ∈ pages, ∀ b ∈ segBlocks pg, goodBlock o w b) →
      (∀ ch ∈ chunks, (ch.content.length : Int) ≤ o.maxChunkSize + 1) →
      ∀ ch ∈ pdfGo o pages pos chunks,
        (ch.content.length : Int) ≤ o.maxChunkSize + 1 := by
  intro pages
  induction pages with
  | nil => intro pos chunks _ hchunks ch hch; exact hchunks ch (by simpa [pdfGo] using hch)
  | cons pg rest ih =>
      intro pos chunks hgood hchunks ch hch
      simp only [pdfGo] at hch
      refine ih _ _ (fun x hx => hgood x (by simp [hx])) ?_ ch hch
      intro c hc
      rcases List.mem_append.mp hc with h | h
      · exact hchunks c h
      · exact chunkSegment_prose_len o w pos chunks.length pg hm0 hmL hW
          (hgood pg (by simp)) c h

lemma dcGo_bound (o : ChunkOptions) (w : ℕ)
    (hm0 : 0 < o.minChunkSize) (hmL : o.minChunkSize ≤ o.maxChunkSize)
    (hW : 1 ≤ effOverlapW o) :
    ∀ (paras : List (List Char)) (pos : Int) (chunks : List TextChunkM),
      (∀ pa ∈ paras, jsTrim pa ≠ [] → ∀ b ∈ segBlocks pa, goodBlock o w b) →
      (∀ ch ∈ chunks, (ch.content.length : Int) ≤ o.maxChunkSize + 1) →
      ∀ ch ∈ dcGo o paras pos chunks,
        (ch.content.length : Int) ≤ o.maxChunkSize + 1 := by
  intro paras
  induction paras with
  | nil => intro pos chunks _ hchunks ch hch; exact hchunks ch (by simpa [dcGo] using hch)
  | cons pa rest ih =>
      intro pos chunks hgood hchunks ch hch
      simp only [dcGo] at hch
      by_cases hpa : jsTrim pa ≠ []
      · rw [if_pos hpa] at hch
        refine ih _ _ (fun x hx => hgood x (by simp [hx])) ?_ ch hch
        intro c hc
        rcases List.mem_append.mp hc with h | h
        · exact hchunks c h
        · exact chunkSegment_prose_len o w pos chunks.length pa hm0 hmL hW
            (hgood pa (by simp) hpa) c h
      · rw [if_neg hpa] at hch
        exact ih _ _ (fun x hx => hgood x (by simp [hx])) hchunks ch hch

lemma validateOptions_ok_facts (p : PartialChunkOptions) (o : ChunkOptions)
    (h : validateOptions p = .ok o) :
    o = mergeDefaults p ∧ 0 < o.minChunkSize ∧ o.minChunkSize ≤ o.maxChunkSize := by
  simp only [validateOptions] at h
  split at h
  · simp at h
  split at h
  · simp at h
  split at h
  · simp at h
  rename_i h1 h2 h3
  push_neg at h3
  simp only [Except.ok.injEq] at h
  refine ⟨h.symm, ?_, ?_⟩ <;> rw [← h] <;> omega

/-- C1 (amended): for every input and every valid chunking options record,
every chunk emitted by `chunkText` either is a whole fenced-code segment
emitted as a single chunk (with NO size cap — the claimed
`1.5 × maxChunkSize` bound is not enforced anywhere), or has content
length at most `maxChunkSize + 1` (the `+ 1` because the flush guard does
not count the joining space) — the latter guaranteed under the per-block
hypotheses `goodBlock`: a single sentence/line block longer than the
budget is never split, and the overlap-seeded buffer must itself fit the
budget (hypotheses on every prose segment's blocks, plus a positive
overlap word count). -/
theorem chunkText_size_amended (text : List Char) (p : PartialChunkOptions)
    (o : ChunkOptions) (w : ℕ)
    (hval : validateOptions p = .ok o)
    (hW : 1 ≤ effOverlapW o)
    (hblocks : ∀ u ∈ proseSegs o text, ∀ b ∈ segBlocks u, goodBlock o w b) :
    ∀ cs, chunkText text p = .ok cs →
      ∀ ch ∈ cs,
        (ch.isCodeBlock = true ∧ (ch.content, true) ∈ separateCodeBlocks text) ∨
        (ch.content.length : Int) ≤ o.maxChunkSize + 1 := by
  obtain ⟨-, hm0, hmL⟩ := validateOptions_ok_facts p o hval
  intro cs hcs
  simp only [chunkText] at hcs
  split at hcs
  · simp at hcs
  rw [hval] at hcs
  replace hcs : (if o.respectCodeBlocks = true ∧
        (o.fileType = some FileType.text ∨ o.fileType = some FileType.markdown) then
      Except.ok (segLoop o (separateCodeBlocks text) 0 [])
    else
      Except.ok (strategyChunk (o.fileType.getD FileType.text) text o)) =
      Except.ok (ε := ChunkError) cs := hcs
  by_cases hbr : o.respectCodeBlocks = true ∧
      (o.fileType = some FileType.text ∨ o.fileType = some FileType.markdown)
  · rw [if_pos hbr] at hcs
    simp only [Except.ok.injEq] at hcs
    subst hcs
    refine segLoop_bound o w (separateCodeBlocks text) hm0 hmL hW
      (separateCodeBlocks text) 0 [] (fun x hx => hx) ?_ (by simp)
    intro sb hsb hcode b hb
    refine hblocks sb.1 ?_ b hb
    simp only [proseSegs, if_pos hbr, List.mem_map]
    exact ⟨sb, List.mem_filter.mpr ⟨hsb, by simp [hcode]⟩, rfl⟩
  · rw [if_neg hbr] at hcs
    simp only [Except.ok.injEq] at hcs
    subst hcs
    intro ch hch
    have hps : proseSegs o text =
        match o.fileType.getD .text with
        | .pdf => jsSplitChar '\x0c' text
        | .docx => (docxSplit text).filter (fun pa => jsTrim pa ≠ [])
        | _ => [text] := by
      simp [proseSegs, if_neg hbr]
    refine Or.inr ?_
    rcases hft : o.fileType.getD .text with _ | _ | _ | _
    · rw [hft] at hps
      have : ∀ b ∈ segBlocks text, goodBlock o w b := by
        intro b hb
        exact hblocks text (by rw [hps]; simp) b hb
      exact chunkSegment_prose_len o w 0 0 text hm0 hmL hW this ch
        (by simpa [strategyChunk, hft] using hch)
    · rw [hft] at hps
      have : ∀ b ∈ segBlocks text, goodBlock o w b := by
        intro b hb
        exact hblocks text (by rw [hps]; simp) b hb
      exact chunkSegment_prose_len o w 0 0 text hm0 hmL hW this ch
        (by simpa [strategyChunk, hft] using hch)
    · rw [hft] at hps
      refine pdfGo_bound o w hm0 hmL hW (jsSplitChar '\x0c' text) 0 [] ?_ (by simp) ch
        (by simpa [strategyChunk, pdfChunk, hft] using hch)
      intro pg hpg b hb
      exact hblocks pg (by rw [hps]; exact hpg) b hb
    · rw [hft] at hps
      refine dcGo_bound o w hm0 hmL hW (docxSplit text) 0 [] ?_ (by simp) ch
        (by simpa [strategyChunk, docxChunk, hft] using hch)
      intro pa hpa htrim b hb
      exact hblocks pa (by rw [hps]; exact List.mem_filter.mpr ⟨hpa, by simpa using htrim⟩) b hb

/-- Concrete text for the C1 witness. -/
def c1wText : List Char := "ab. cd. ef.".data

/-- Concrete valid options for the C1 witness (every block of `c1wText`
satisfies `goodBlock` with word bound `3`). -/
def c1wOpts : PartialChunkOptions :=
  { maxChunkSize := some 20, minChunkSize := some 2, overlap := some 1,
    overlapWords := some 1, fileType := some .text }

/-- The single chunk `chunkText` produces for the C1 witness input. -/
def c1wChunk : TextChunkM :=
  { content := "ab. cd. ef.".data, index := 0, startPosition := 1,
    endPosition := 12, isCodeBlock := false }

/-- Witness for C1's amended theorem, discharging its hypotheses at the
concrete input `c1wText`/`c1wOpts`. -/
theorem chunkText_size_amended_witness :
    (c1wChunk.isCodeBlock = true ∧ (c1wChunk.content, true) ∈ separateCodeBlocks c1wText) ∨
    (c1wChunk.content.length : Int) ≤ (mergeDefaults c1wOpts).maxChunkSize + 1 :=
  chunkText_size_amended c1wText c1wOpts (mergeDefaults c1wOpts) 3 (by rfl) (by decide)
    (by decide) [c1wChunk] (by rfl) c1wChunk (by simp)

end RagDocs
